import Mathlib

/-!
Shallow embedding of `each.py` (BMTLab/each), a command-line token-iteration
executor.  Strings are modelled as `List Char`; the Python standard-library
operations the script relies on (`str.splitlines`, `str.split`, `str.strip`,
`str.replace`, `re.split` over an alternation of escaped literals,
`shlex.quote`) are embedded faithfully, including their edge cases
(empty separators, zero-width regex matches, `\r\n` handling, the exact
whitespace and line-boundary character sets of CPython).

Process execution is impure, so the orchestrator in `main` is embedded
relative to an oracle `runRc : List Char → Int` giving the exit code of each
built command, and the parallel path is additionally parametrised by the
completion order of the submitted commands (a list of exit codes, assumed to
be a permutation of the submitted commands' codes).
-/

namespace Each

/-- Exit codes defined at the top of `each.py`. -/
def EXIT_OK : Int := 0

/-- Exit code 64 (reserved for usage errors by `argparse`). -/
def EXIT_USAGE : Int := 64

/-- Exit code reported when the command template lacks the placeholder. -/
def EXIT_NO_PLACEHOLDER : Int := 65

/-- Exit code reported for a malformed `KEY=VALUE` environment item. -/
def EXIT_BAD_ENV : Int := 66

/-- Exit code reported when `-P N` with `N > 1` is used without `--no-stdin`. -/
def EXIT_NEEDS_NO_STDIN_FOR_PAR : Int := 67

/-- Fallback sentinel for a failed child whose code would read as success. -/
def EXIT_CHILD_FAILED : Int := 70

/-- The single-quote character, written numerically. -/
def squote : Char := '\x27'

/-- The double-quote character, written numerically. -/
def dquote : Char := '\x22'

/-- Carriage return. -/
def crChar : Char := '\x0d'

/-- Line feed. -/
def lfChar : Char := '\x0a'

/-- CPython `str.isspace` / `str.strip` whitespace characters
(`Py_UNICODE_ISSPACE`): 0x09–0x0D, 0x1C–0x1F, 0x20, 0x85, 0xA0, 0x1680,
0x2000–0x200A, 0x2028, 0x2029, 0x202F, 0x205F, 0x3000. -/
def isPySpace (c : Char) : Bool :=
  let n := c.toNat
  (0x09 ≤ n && n ≤ 0x0D) || (0x1C ≤ n && n ≤ 0x1F) || n == 0x20 ||
  n == 0x85 || n == 0xA0 || n == 0x1680 || (0x2000 ≤ n && n ≤ 0x200A) ||
  n == 0x2028 || n == 0x2029 || n == 0x202F || n == 0x205F || n == 0x3000

/-- CPython `str.splitlines` line-boundary characters: 0x0A, 0x0B, 0x0C,
0x0D, 0x1C, 0x1D, 0x1E, 0x85, 0x2028, 0x2029 (with `\r\n` treated as one
boundary). -/
def isLineBoundary (c : Char) : Bool :=
  let n := c.toNat
  (0x0A ≤ n && n ≤ 0x0D) || (0x1C ≤ n && n ≤ 0x1E) || n == 0x85 ||
  n == 0x2028 || n == 0x2029

/-- Worker for `splitlines`: `acc` is the reversed current line.  A `\r\n`
pair is one boundary; a lone `\r` is covered by `isLineBoundary`. -/
def splitlinesGo : List Char → List Char → List (List Char)
  | [], acc => if acc = [] then [] else [acc.reverse]
  | [c], acc =>
    if isLineBoundary c then acc.reverse :: splitlinesGo [] []
    else splitlinesGo [] (c :: acc)
  | c :: c2 :: rest, acc =>
    if c = crChar ∧ c2 = lfChar then acc.reverse :: splitlinesGo rest []
    else if isLineBoundary c then acc.reverse :: splitlinesGo (c2 :: rest) []
    else splitlinesGo (c2 :: rest) (c :: acc)

/-- Model of CPython `str.splitlines()` (with `keepends=False`):
`""` gives `[]`, a trailing terminator produces no trailing empty line. -/
def splitlines (text : List Char) : List (List Char) :=
  splitlinesGo text []

/-- Model of CPython `str.split(sep)` for a single-character separator
(used for `text.split("\x00")`): keeps empty pieces, `""` gives `[""]`. -/
def pySplitOnChar (sep : Char) : List Char → List (List Char)
  | [] => [[]]
  | c :: rest =>
    if c = sep then [] :: pySplitOnChar sep rest
    else
      match pySplitOnChar sep rest with
      | p :: ps => (c :: p) :: ps
      | [] => [[c]]

/-- Model of CPython `str.strip()`: remove leading and trailing whitespace. -/
def pyStrip (s : List Char) : List Char :=
  ((s.dropWhile isPySpace).reverse.dropWhile isPySpace).reverse

/-- Ordered-alternation matcher: the first delimiter in list order that is a
prefix of `cs` wins.  This is how a compiled regex
`re.escape(d1)|re.escape(d2)|...` behaves at a fixed position: alternatives
are tried left to right, each as a literal. -/
def firstMatch (ds : List (List Char)) (cs : List Char) : Option (List Char) :=
  ds.find? (fun d => d.isPrefixOf cs)

/-- Regex-split scanner, parametrised by the matcher `choose` applied at each
position.  Models CPython `re.split` scanning (including zero-width matches:
an empty match splits here and the scanner then advances one character, and a
match is attempted at the end-of-string position).  `fuel` only forces
termination; any `fuel > cs.length` gives the true result. -/
def reSplitWith (choose : List Char → Option (List Char)) :
    Nat → List Char → List Char → List (List Char)
  | 0, _, acc => [acc.reverse]
  | fuel + 1, cs, acc =>
    match choose cs with
    | none =>
      match cs with
      | [] => [acc.reverse]
      | c :: rest => reSplitWith choose fuel rest (c :: acc)
    | some d =>
      if d = [] then
        match cs with
        | [] => [acc.reverse, []]
        | c :: rest => acc.reverse :: reSplitWith choose fuel rest [c]
      else acc.reverse :: reSplitWith choose fuel (cs.drop d.length) []

/-- Model of `re.split(compile_delimiters_regex(ds), text)` from
`compile_delimiters_regex` + `tokenize_input`: split on the ordered
alternation of the literal delimiters. -/
def pySplit (ds : List (List Char)) (cs : List Char) : List (List Char) :=
  reSplitWith (firstMatch ds) (cs.length + 1) cs []

/-- The post-processing loop of `tokenize_input`: optionally strip each
piece, then drop it when it is empty and `keep_empty` is off. -/
def tokenLoop (keep_empty strip_ws : Bool) : List (List Char) → List (List Char)
  | [] => []
  | part :: parts =>
    let token := if strip_ws then pyStrip part else part
    if token = [] ∧ ¬ keep_empty then tokenLoop keep_empty strip_ws parts
    else token :: tokenLoop keep_empty strip_ws parts

/-- The raw `parts` computed by `tokenize_input` before its loop:
NUL split, else delimiter regex split (when the delimiter list is truthy,
i.e. present and non-empty), else `splitlines`. -/
def rawParts (text : List Char) (delimiters : Option (List (List Char)))
    (use_null : Bool) : List (List Char) :=
  if use_null then pySplitOnChar '\x00' text
  else
    match delimiters with
    | some ds => if ds = [] then splitlines text else pySplit ds text
    | none => splitlines text

/-- Model of `tokenize_input(text, delimiters, use_null, keep_empty, strip_ws)`. -/
def tokenize_input (text : List Char) (delimiters : Option (List (List Char)))
    (use_null keep_empty strip_ws : Bool) : List (List Char) :=
  tokenLoop keep_empty strip_ws (rawParts text delimiters use_null)

/-- Characters `shlex.quote` considers safe: the ASCII-only `\w` class
together with at-sign, percent, plus, equals, colon, comma, dot, slash and
hyphen (its unsafe-character pattern is compiled with `re.ASCII`). -/
def shlexSafeChar (c : Char) : Bool :=
  c.isAlpha || c.isDigit || c == '_' || c == '@' || c == '%' || c == '+' ||
  c == '=' || c == ':' || c == ',' || c == '.' || c == '/' || c == '-'

/-- Worker for `pyReplace` with a non-empty pattern: left-to-right,
non-overlapping replacement.  `fuel ≥ s.length` gives the true result. -/
def replaceGo (pat rep : List Char) : Nat → List Char → List Char
  | 0, s => s
  | _ + 1, [] => []
  | fuel + 1, c :: rest =>
    if pat.isPrefixOf (c :: rest) then
      rep ++ replaceGo pat rep fuel ((c :: rest).drop pat.length)
    else c :: replaceGo pat rep fuel rest

/-- Model of CPython `str.replace(pat, rep)`: every non-overlapping
occurrence, scanned left to right.  An empty pattern matches at every
boundary, so `"ab".replace("", "X") == "XaXbX"`. -/
def pyReplace (s pat rep : List Char) : List Char :=
  if pat = [] then rep ++ s.flatMap (fun c => c :: rep)
  else replaceGo pat rep s.length s

/-- Model of `shlex.quote`: empty gives `''`; an all-safe string is returned
unchanged; otherwise wrap in single quotes with each embedded single quote
replaced by the five-character sequence quote, double-quote, quote,
double-quote, quote. -/
def shlexQuote (s : List Char) : List Char :=
  if s = [] then [squote, squote]
  else if s.all shlexSafeChar then s
  else squote :: pyReplace s [squote] [squote, dquote, squote, dquote, squote] ++ [squote]

/-- Model of `build_command(template, placeholder, argument, quote)`:
optionally shell-quote the argument, then replace every occurrence of the
placeholder in the template with it. -/
def build_command (template placeholder argument : List Char) (quote : Bool) :
    List Char :=
  let arg := if quote then shlexQuote argument else argument
  pyReplace template placeholder arg

/-- Python `a or b` on integers: `a` when non-zero, else `b`. -/
def pyOrInt (a b : Int) : Int :=
  if a ≠ 0 then a else b

/-- Substring test, Python `sub in s` on strings (`"" in s` is `True`). -/
def containsSub (sub : List Char) : List Char → Bool
  | [] => sub.isPrefixOf []
  | c :: rest => sub.isPrefixOf (c :: rest) || containsSub sub rest

/-- Is an `--env` item malformed?  `apply_environment` rejects an item that
does not contain `=` or that starts with `=`. -/
def envItemBad (item : List Char) : Bool :=
  !(item.contains '=') || item.head? == some '='

/-- The validated configuration handed from `parse_args` to `main`.
Encoding and error policy are absorbed into the already-decoded stdin text;
trace and shell only affect the runner, absorbed into the exit-code oracle. -/
structure Config where
  command : List Char
  placeholder : List Char
  delimiter : Option (List (List Char))
  null : Bool
  strip : Bool
  keep_empty : Bool
  max_procs : Int
  no_stdin : Bool
  dry_run : Bool
  no_quote : Bool
  env : List (List Char)

/-- The validation performed by `parse_args` after `argparse` parsing, in
source order: placeholder presence (exit 65), environment-item structure
(exit 66), the parallel/stdin guard (exit 67).  `none` means accepted. -/
def validate_args (cfg : Config) : Option Int :=
  if ¬ containsSub cfg.placeholder cfg.command then some EXIT_NO_PLACEHOLDER
  else if cfg.env.any envItemBad then some EXIT_BAD_ENV
  else if cfg.max_procs > 1 ∧ ¬ cfg.no_stdin then some EXIT_NEEDS_NO_STDIN_FOR_PAR
  else none

/-- The sequential loop of `main` (lines 520–538): build and run one command
per token in order; on the first non-zero exit code stop and return
`rc or EXIT_CHILD_FAILED`.  Returns the executed commands and the exit
code. -/
def runSequential (runRc : List Char → Int) (template placeholder : List Char)
    (quote : Bool) : List (List Char) → List (List Char) × Int
  | [] => ([], EXIT_OK)
  | tok :: rest =>
    let cmd := build_command template placeholder tok quote
    let rc := runRc cmd
    if rc ≠ 0 then ([cmd], pyOrInt rc EXIT_CHILD_FAILED)
    else
      let r := runSequential runRc template placeholder quote rest
      (cmd :: r.1, r.2)

/-- The result-collection loop of the parallel path (lines 562–565): fold
over exit codes in completion order, keeping the first observed non-zero one
(as `rc or EXIT_CHILD_FAILED`). -/
def collectParallel (rcs : List Int) : Int :=
  rcs.foldl
    (fun return_code rc =>
      if rc ≠ 0 ∧ return_code = EXIT_OK then pyOrInt rc EXIT_CHILD_FAILED
      else return_code)
    EXIT_OK

/-- The parallel path of `main` (lines 541–567): every token's command is
built and submitted to the pool (no short-circuiting); results are folded in
completion order, given here as `completionOrder`.  Returns the submitted
commands and the exit code. -/
def runParallel (runRc : List Char → Int) (template placeholder : List Char)
    (quote : Bool) (tokens : List (List Char)) (completionOrder : List Int) :
    List (List Char) × Int :=
  let cmds := tokens.map (fun tok => build_command template placeholder tok quote)
  let _ := cmds.map runRc
  (cmds, collectParallel completionOrder)

/-- Model of `main(argv)`: validate, tokenize the decoded stdin text,
short-circuit on no tokens, dry-run, then the sequential or parallel path.
The first component is the list of commands actually handed to the runner
(dry-run executes nothing). -/
def main_model (cfg : Config) (stdinText : List Char) (runRc : List Char → Int)
    (completionOrder : List Int) : List (List Char) × Int :=
  match validate_args cfg with
  | some code => ([], code)
  | none =>
    let tokens := tokenize_input stdinText cfg.delimiter cfg.null cfg.keep_empty cfg.strip
    if tokens = [] then ([], EXIT_OK)
    else
      let quote := !cfg.no_quote
      if cfg.dry_run then ([], EXIT_OK)
      else if cfg.max_procs ≤ 1 then
        runSequential runRc cfg.command cfg.placeholder quote tokens
      else
        runParallel runRc cfg.command cfg.placeholder quote tokens completionOrder

/-- Modelled from the spec: at a fixed position, pick the longest configured
delimiter matching there (the spec's reading of the union match as a
leftmost-longest literal alternation).  Among equal-length matches the
first is kept; two equal-length prefixes of the same text are equal anyway. -/
def longestMatch (ds : List (List Char)) (cs : List Char) : Option (List Char) :=
  (ds.filter (fun d => d.isPrefixOf cs)).foldl
    (fun best d =>
      match best with
      | none => some d
      | some b => if d.length > b.length then some d else best)
    none

/-- Modelled from the spec: the split in which, at each leftmost matching
position, the longest matching delimiter is the one consumed.  Shares the
scanner with `pySplit`; only the matcher differs. -/
def leftmostLongestSplit (ds : List (List Char)) (cs : List Char) :
    List (List Char) :=
  reSplitWith (longestMatch ds) (cs.length + 1) cs []

/-- Leftmost occurrence of `pat` in a text: returns the part before the
occurrence and the part after it. -/
def findFirstOcc (pat : List Char) : List Char → Option (List Char × List Char)
  | [] => if pat.isPrefixOf [] then some ([], []) else none
  | c :: rest =>
    if pat.isPrefixOf (c :: rest) then some ([], (c :: rest).drop pat.length)
    else
      match findFirstOcc pat rest with
      | some ab => some (c :: ab.1, ab.2)
      | none => none

/-- Decomposition property of `findFirstOcc`. -/
theorem findFirstOcc_decomp (pat : List Char) :
    ∀ t ab, findFirstOcc pat t = some ab → t = ab.1 ++ pat ++ ab.2 := by
  intro t
  induction t with
  | nil =>
    intro ab h
    simp only [findFirstOcc] at h
    split at h
    · rename_i hp
      have hpat : pat = [] :=
        List.prefix_nil.mp (List.isPrefixOf_iff_prefix.mp hp)
      have hab : ab = ([], []) := (Option.some_inj.mp h).symm
      subst hab
      simp [hpat]
    · exact absurd h (by simp)
  | cons c rest ih =>
    intro ab h
    simp only [findFirstOcc] at h
    split at h
    · rename_i hp
      have hpre : pat <+: (c :: rest) := List.isPrefixOf_iff_prefix.mp hp
      rcases hpre with ⟨u, hu⟩
      cases ab
      simp at h
      rcases h with ⟨h1, h2⟩
      subst h1
      simp only [← hu, List.nil_append]
      rw [← h2, ← hu, List.drop_left]
    · rcases hr : findFirstOcc pat rest with _ | ab2
      · rw [hr] at h; exact absurd h (by simp)
      · rw [hr] at h
        simp at h
        have := ih ab2 hr
        cases ab
        simp at h
        rcases h with ⟨h1, h2⟩
        simp [← h1, ← h2, this]

/-- With a non-empty pattern, the remainder after the first occurrence is
strictly shorter than the text. -/
theorem findFirstOcc_len (c0 : Char) (pat0 : List Char) (t : List Char)
    (ab : List Char × List Char) (h : findFirstOcc (c0 :: pat0) t = some ab) :
    ab.2.length < t.length := by
  have := findFirstOcc_decomp (c0 :: pat0) t ab h
  subst this
  simp
  omega

/-- Modelled from the spec: replace every occurrence of the (non-empty)
placeholder `c0 :: pat0`, working leftmost first, with the replacement text
never rescanned (substitution is literal, not recursive): the recursion
continues strictly after the inserted replacement. -/
def replaceAllSpec (c0 : Char) (pat0 rep : List Char) (t : List Char) :
    List Char :=
  match h : findFirstOcc (c0 :: pat0) t with
  | some ab => ab.1 ++ rep ++ replaceAllSpec c0 pat0 rep ab.2
  | none => t
termination_by t.length
decreasing_by exact findFirstOcc_len c0 pat0 t ab h

/-- Single pass replacing each `\r\n` pair by `\n` (proof device for the
newline-normalisation claim). -/
def normCRLF : List Char → List Char
  | [] => []
  | [c] => [c]
  | c :: c2 :: rest =>
    if c = crChar ∧ c2 = lfChar then lfChar :: normCRLF rest
    else c :: normCRLF (c2 :: rest)

/-- Single pass replacing `\r\n` and lone `\r` by `\n` (proof device). -/
def normNewlines : List Char → List Char
  | [] => []
  | [c] => [if c = crChar then lfChar else c]
  | c :: c2 :: rest =>
    if c = crChar ∧ c2 = lfChar then lfChar :: normNewlines rest
    else (if c = crChar then lfChar else c) :: normNewlines (c2 :: rest)

/-- The first non-zero exit code of a list of exit codes, zero if none. -/
def firstNonzero (rcs : List Int) : Int :=
  (rcs.find? (fun rc => decide (rc ≠ 0))).getD 0

/-! ### Tokenizer post-processing -/

theorem tokenLoop_true_eq_map (strip_ws : Bool) (l : List (List Char)) :
    tokenLoop true strip_ws l
      = l.map (fun p => if strip_ws then pyStrip p else p) := by
  induction l with
  | nil => rfl
  | cons p ps ih => simp [tokenLoop, ih]

theorem tokenLoop_false_ne (strip_ws : Bool) :
    ∀ (l : List (List Char)) (tok : List Char),
      tok ∈ tokenLoop false strip_ws l → tok ≠ [] := by
  intro l
  induction l with
  | nil => intro tok h; simp [tokenLoop] at h
  | cons p ps ih =>
    intro tok h
    simp only [tokenLoop] at h
    by_cases hcond : (if strip_ws then pyStrip p else p) = []
    · rw [if_pos ⟨hcond, by simp⟩] at h
      exact ih tok h
    · rw [if_neg (by rintro ⟨h1, _⟩; exact hcond h1)] at h
      rcases List.mem_cons.mp h with rfl | hmem
      · exact hcond
      · exact ih tok hmem

theorem tokenLoop_true_false_id (l : List (List Char)) :
    tokenLoop true false l = l := by
  rw [tokenLoop_true_eq_map]
  simp

/-- C6: with `keep_empty = false` no produced token is empty; with
`keep_empty = true` the output has exactly one token per raw split piece,
in the original order, each piece stripped first when stripping is on. -/
theorem C6_empty_token_policy (text : List Char)
    (delimiters : Option (List (List Char))) (use_null strip_ws : Bool) :
    (∀ tok ∈ tokenize_input text delimiters use_null false strip_ws, tok ≠ []) ∧
    (tokenize_input text delimiters use_null true strip_ws).length
      = (rawParts text delimiters use_null).length ∧
    tokenize_input text delimiters use_null true strip_ws
      = (rawParts text delimiters use_null).map
          (fun p => if strip_ws then pyStrip p else p) := by
  refine ⟨fun tok h => tokenLoop_false_ne strip_ws _ tok h, ?_,
    tokenLoop_true_eq_map _ _⟩
  rw [tokenize_input, tokenLoop_true_eq_map]
  simp

/-- Witness for C6 at a concrete input. -/
theorem C6_empty_token_policy_witness :
    "a".toList ≠ [] ∧
    (tokenize_input "a,,b".toList (some [[',']]) false true false).length
      = (rawParts "a,,b".toList (some [[',']]) false).length :=
  ⟨(C6_empty_token_policy "a,,b".toList (some [[',']]) false false).1
      "a".toList (by decide),
   (C6_empty_token_policy "a,,b".toList (some [[',']]) false false).2.1⟩

/-! ### Rejoining by a single delimiter (C8) -/

theorem intercalate_nil_list (d : List Char) : List.intercalate d [] = [] := by
  simp [List.intercalate]

theorem intercalate_singleton (d a : List Char) :
    List.intercalate d [a] = a := by
  simp [List.intercalate]

theorem intercalate_cons_two (d a b : List Char) (l : List (List Char)) :
    List.intercalate d (a :: b :: l) = a ++ d ++ List.intercalate d (b :: l) := by
  simp [List.intercalate]

theorem reSplitWith_succ_some (choose : List Char → Option (List Char))
    (fuel : Nat) (cs acc d : List Char) (h : choose cs = some d) (hd : d ≠ []) :
    reSplitWith choose (fuel + 1) cs acc
      = acc.reverse :: reSplitWith choose fuel (cs.drop d.length) [] := by
  simp only [reSplitWith, h]
  rw [if_neg hd]

theorem reSplitWith_succ_empty_nil (choose : List Char → Option (List Char))
    (fuel : Nat) (acc : List Char) (h : choose [] = some []) :
    reSplitWith choose (fuel + 1) [] acc = [acc.reverse, []] := by
  simp only [reSplitWith, h]
  rw [if_pos trivial]

theorem reSplitWith_succ_empty_cons (choose : List Char → Option (List Char))
    (fuel : Nat) (c : Char) (rest acc : List Char)
    (h : choose (c :: rest) = some []) :
    reSplitWith choose (fuel + 1) (c :: rest) acc
      = acc.reverse :: reSplitWith choose fuel rest [c] := by
  simp only [reSplitWith, h]
  rw [if_pos trivial]

theorem reSplitWith_succ_none_nil (choose : List Char → Option (List Char))
    (fuel : Nat) (acc : List Char) (h : choose [] = none) :
    reSplitWith choose (fuel + 1) [] acc = [acc.reverse] := by
  simp only [reSplitWith, h]

theorem reSplitWith_succ_none_cons (choose : List Char → Option (List Char))
    (fuel : Nat) (c : Char) (rest acc : List Char)
    (h : choose (c :: rest) = none) :
    reSplitWith choose (fuel + 1) (c :: rest) acc
      = reSplitWith choose fuel rest (c :: acc) := by
  simp only [reSplitWith, h]

theorem reSplitWith_ne_nil (choose : List Char → Option (List Char)) :
    ∀ (fuel : Nat) (cs acc : List Char), reSplitWith choose fuel cs acc ≠ [] := by
  intro fuel
  induction fuel with
  | zero => intro cs acc; simp [reSplitWith]
  | succ f ih =>
    intro cs acc
    rcases h : choose cs with _ | d
    · rcases cs with _ | ⟨c, rest⟩
      · rw [reSplitWith_succ_none_nil choose f acc h]; simp
      · rw [reSplitWith_succ_none_cons choose f c rest acc h]
        exact ih rest (c :: acc)
    · by_cases hd : d = []
      · subst hd
        rcases cs with _ | ⟨c, rest⟩
        · rw [reSplitWith_succ_empty_nil choose f acc h]; simp
        · rw [reSplitWith_succ_empty_cons choose f c rest acc h]; simp
      · rw [reSplitWith_succ_some choose f cs acc d h hd]; simp

theorem firstMatch_singleton (d cs : List Char) :
    firstMatch [d] cs = if d.isPrefixOf cs then some d else none := by
  cases h : d.isPrefixOf cs <;> simp [firstMatch, List.find?, h]

/-- Splitting on a single literal delimiter and rejoining with it
reconstructs the text exactly. -/
theorem reSplit_join (d : List Char) :
    ∀ (fuel : Nat) (cs acc : List Char), cs.length < fuel →
      List.intercalate d (reSplitWith (firstMatch [d]) fuel cs acc)
        = acc.reverse ++ cs := by
  intro fuel
  induction fuel with
  | zero => intro cs acc h; omega
  | succ f ih =>
    intro cs acc hlen
    by_cases hp : d.isPrefixOf cs
    · have hm : firstMatch [d] cs = some d := by
        rw [firstMatch_singleton, if_pos hp]
      by_cases hd : d = []
      · subst hd
        rcases cs with _ | ⟨c, rest⟩
        · rw [reSplitWith_succ_empty_nil _ f acc hm,
              intercalate_cons_two, intercalate_singleton]
          simp
        · have hlen2 : rest.length < f := by simp at hlen; omega
          rw [reSplitWith_succ_empty_cons _ f c rest acc hm]
          obtain ⟨l0, ls, hL⟩ :=
            List.exists_cons_of_ne_nil
              (reSplitWith_ne_nil (firstMatch [([] : List Char)]) f rest [c])
          rw [hL, intercalate_cons_two, ← hL, ih rest [c] hlen2]
          simp
      · rw [reSplitWith_succ_some _ f cs acc d hm hd]
        obtain ⟨u, hu⟩ := List.isPrefixOf_iff_prefix.mp hp
        have hdrop : cs.drop d.length = u := by
          rw [← hu, List.drop_left]
        have hlen2 : u.length < f := by
          have h1 : cs.length = d.length + u.length := by
            rw [← hu]; simp
          have h2 : 1 ≤ d.length := by
            rcases d with _ | _ <;> simp_all
          omega
        obtain ⟨l0, ls, hL⟩ :=
          List.exists_cons_of_ne_nil
            (reSplitWith_ne_nil (firstMatch [d]) f (cs.drop d.length) [])
        rw [hL, intercalate_cons_two, ← hL, hdrop, ih u [] hlen2]
        rw [← hu]
        simp
    · have hm : firstMatch [d] cs = none := by
        rw [firstMatch_singleton, if_neg hp]
      rcases cs with _ | ⟨c, rest⟩
      · rw [reSplitWith_succ_none_nil _ f acc hm, intercalate_singleton]
        simp
      · rw [reSplitWith_succ_none_cons _ f c rest acc hm,
            ih rest (c :: acc) (by simp at hlen ⊢; omega)]
        simp

/-- C8 counterexample: with delimiters `["b", "ba"]` and text `"cbad"`
(`keep_empty = true`), the tokens are `["c", "ad"]`, but rejoining them with
the delimiter `"ba"` from the set and re-tokenizing yields `["c", "aad"]`,
not the original token sequence. -/
theorem C8_counterexample :
    ("ba".toList ∈ ["b".toList, "ba".toList]) ∧
    tokenize_input "cbad".toList (some ["b".toList, "ba".toList]) false true false
      = ["c".toList, "ad".toList] ∧
    tokenize_input
        (List.intercalate "ba".toList
          (tokenize_input "cbad".toList (some ["b".toList, "ba".toList])
            false true false))
        (some ["b".toList, "ba".toList]) false true false
      ≠ tokenize_input "cbad".toList (some ["b".toList, "ba".toList])
          false true false := by
  decide

/-- C8 amended: with a single configured literal delimiter (and stripping
off), `keep_empty = true` tokenization followed by rejoining with that
delimiter and re-tokenizing yields the original token sequence. -/
theorem C8_single_delimiter_resplit (d text : List Char) :
    tokenize_input
        (List.intercalate d (tokenize_input text (some [d]) false true false))
        (some [d]) false true false
      = tokenize_input text (some [d]) false true false := by
  have hbase : ∀ s : List Char,
      tokenize_input s (some [d]) false true false = pySplit [d] s := by
    intro s
    simp [tokenize_input, rawParts, tokenLoop_true_false_id]
  have hj : List.intercalate d (pySplit [d] text) = text := by
    have := reSplit_join d (text.length + 1) text [] (by omega)
    simpa [pySplit] using this
  rw [hbase text, hj, hbase text]

/-! ### Ordered alternation versus leftmost-longest (C3) -/

theorem foldl_longest_keep :
    ∀ (l : List (List Char)) (b : List Char),
      (∀ x ∈ l, x.length ≤ b.length) →
      l.foldl
        (fun best d =>
          match best with
          | none => some d
          | some bb => if d.length > bb.length then some d else best)
        (some b) = some b := by
  intro l
  induction l with
  | nil => intro b _; rfl
  | cons x xs ih =>
    intro b hb
    simp only [List.foldl_cons]
    rw [if_neg (by have := hb x (by simp); omega)]
    exact ih b (fun y hy => hb y (by simp [hy]))

theorem firstMatch_eq_longestMatch :
    ∀ (ds : List (List Char)),
      ds.Pairwise (fun a b => a.isPrefixOf b → a = b) →
      ∀ cs, firstMatch ds cs = longestMatch ds cs := by
  intro ds
  induction ds with
  | nil => intro _ cs; rfl
  | cons d ds ih =>
    intro hpw cs
    rcases List.pairwise_cons.mp hpw with ⟨hd, htl⟩
    by_cases hp : d.isPrefixOf cs
    · have h1 : firstMatch (d :: ds) cs = some d := by
        simp [firstMatch, List.find?, hp]
      have hbound : ∀ x ∈ ds.filter (fun e => e.isPrefixOf cs),
          x.length ≤ d.length := by
        intro x hx
        rcases List.mem_filter.mp hx with ⟨hxds, hxp⟩
        rcases List.prefix_or_prefix_of_prefix
            (List.isPrefixOf_iff_prefix.mp hp)
            (List.isPrefixOf_iff_prefix.mp hxp) with hdx | hxd
        · have : d = x := hd x hxds (List.isPrefixOf_iff_prefix.mpr hdx)
          rw [this]
        · exact hxd.length_le
      have h2 : longestMatch (d :: ds) cs = some d := by
        simp only [longestMatch, List.filter_cons, hp, if_pos, List.foldl_cons]
        exact foldl_longest_keep _ d hbound
      rw [h1, h2]
    · have h1 : firstMatch (d :: ds) cs = firstMatch ds cs := by
        simp [firstMatch, List.find?, hp]
      have h2 : longestMatch (d :: ds) cs = longestMatch ds cs := by
        simp only [longestMatch, List.filter_cons, hp, Bool.false_eq_true,
          if_false]
      rw [h1, h2]
      exact ih htl cs

/-- C3 counterexample: with delimiters `["a", "ab"]` and text `"xaby"`, the
code splits to `["x", "by"]` (the first listed delimiter `"a"` wins), while
a leftmost-longest union match would consume `"ab"` and produce
`["x", "y"]`. -/
theorem C3_counterexample :
    tokenize_input "xaby".toList (some ["a".toList, "ab".toList])
        false true false
      = ["x".toList, "by".toList] ∧
    tokenLoop true false
        (leftmostLongestSplit ["a".toList, "ab".toList] "xaby".toList)
      = ["x".toList, "y".toList] ∧
    tokenize_input "xaby".toList (some ["a".toList, "ab".toList])
        false true false
      ≠ tokenLoop true false
          (leftmostLongestSplit ["a".toList, "ab".toList] "xaby".toList) := by
  decide

/-- C3 amended: with several literal delimiters the split is a union match
in which, at each leftmost matching position, the first matching delimiter
in the configured list order wins (ordered-alternation semantics).  This
coincides with the leftmost-longest reading exactly when no delimiter is a
proper prefix of a later-listed one. -/
theorem C3_first_listed_wins (ds : List (List Char)) (cs : List Char)
    (keep_empty strip_ws : Bool) (hds : ds ≠ [])
    (hpw : ds.Pairwise (fun a b => a.isPrefixOf b → a = b)) :
    tokenize_input cs (some ds) false keep_empty strip_ws
      = tokenLoop keep_empty strip_ws (leftmostLongestSplit ds cs) := by
  have hch : firstMatch ds = longestMatch ds :=
    funext (firstMatch_eq_longestMatch ds hpw)
  simp only [tokenize_input, rawParts, if_neg hds, Bool.false_eq_true,
    if_false]
  rw [pySplit, leftmostLongestSplit, hch]

/-- Witness for the amended C3 at a concrete input where the delimiter list
is ordered longest-first. -/
theorem C3_first_listed_wins_witness :
    tokenize_input "xaby".toList (some ["ab".toList, "a".toList])
        false true false
      = tokenLoop true false
          (leftmostLongestSplit ["ab".toList, "a".toList] "xaby".toList) :=
  C3_first_listed_wins ["ab".toList, "a".toList] "xaby".toList true false
    (by decide) (by decide)

/-! ### Command building (C5) -/

theorem replaceAllSpec_of_none (c0 : Char) (pat0 rep t : List Char)
    (h : findFirstOcc (c0 :: pat0) t = none) :
    replaceAllSpec c0 pat0 rep t = t := by
  rw [replaceAllSpec]
  split
  · rename_i ab h2
    rw [h] at h2
    exact absurd h2 (by simp)
  · rfl

theorem replaceAllSpec_of_some (c0 : Char) (pat0 rep t : List Char)
    (ab : List Char × List Char) (h : findFirstOcc (c0 :: pat0) t = some ab) :
    replaceAllSpec c0 pat0 rep t
      = ab.1 ++ rep ++ replaceAllSpec c0 pat0 rep ab.2 := by
  rw [replaceAllSpec]
  split
  · rename_i ab2 h2
    rw [h] at h2
    have : ab = ab2 := Option.some_inj.mp h2
    rw [this]
  · rename_i h2
    rw [h] at h2
    exact absurd h2 (by simp)

theorem replaceGo_nil (pat rep : List Char) (fuel : Nat) :
    replaceGo pat rep fuel [] = [] := by
  cases fuel <;> rfl

theorem replaceGo_eq_replaceAllSpec (c0 : Char) (pat0 rep : List Char) :
    ∀ (fuel : Nat) (t : List Char), t.length ≤ fuel →
      replaceGo (c0 :: pat0) rep fuel t = replaceAllSpec c0 pat0 rep t := by
  intro fuel
  induction fuel with
  | zero =>
    intro t ht
    have ht0 : t = [] := List.length_eq_zero.mp (by omega)
    subst ht0
    rw [replaceGo_nil, replaceAllSpec_of_none]
    simp [findFirstOcc]
  | succ f ih =>
    intro t ht
    rcases t with _ | ⟨c, rest⟩
    · rw [replaceGo_nil, replaceAllSpec_of_none]
      simp [findFirstOcc]
    · by_cases hp : (c0 :: pat0).isPrefixOf (c :: rest)
      · have hocc : findFirstOcc (c0 :: pat0) (c :: rest)
            = some ([], (c :: rest).drop (c0 :: pat0).length) := by
          simp [findFirstOcc, hp]
        rw [replaceAllSpec_of_some _ _ _ _ _ hocc]
        simp only [replaceGo, if_pos hp]
        have hlen : ((c :: rest).drop (c0 :: pat0).length).length ≤ f := by
          simp at ht ⊢
          omega
        rw [ih _ hlen]
        simp
      · simp only [replaceGo, if_neg hp]
        have hrest : rest.length ≤ f := by simp at ht; omega
        rw [ih rest hrest]
        rcases hr : findFirstOcc (c0 :: pat0) rest with _ | ab
        · rw [replaceAllSpec_of_none _ _ _ _ hr,
              replaceAllSpec_of_none]
          simp [findFirstOcc, hp, hr]
        · have hocc : findFirstOcc (c0 :: pat0) (c :: rest)
              = some (c :: ab.1, ab.2) := by
            simp [findFirstOcc, hp, hr]
          rw [replaceAllSpec_of_some _ _ _ _ _ hocc,
              replaceAllSpec_of_some _ _ _ _ _ hr]
          simp

/-- C5: with quoting enabled, `build_command` equals the specification-level
replace-every-occurrence function: every occurrence of the (non-empty)
placeholder is replaced, leftmost first, with the shell-quoted token
substituted literally (the inserted text is never rescanned, so a token
containing the placeholder is not substituted recursively); the empty token
substitutes the quoted empty-argument form, two single quotes, not
nothing. -/
theorem C5_build_command_substitution (template : List Char) (c0 : Char)
    (ph0 tok : List Char) :
    build_command template (c0 :: ph0) tok true
      = replaceAllSpec c0 ph0 (shlexQuote tok) template ∧
    build_command template (c0 :: ph0) [] true
      = replaceAllSpec c0 ph0 [squote, squote] template ∧
    shlexQuote [] = [squote, squote] ∧ ([squote, squote] : List Char) ≠ [] := by
  have hbuild : ∀ s : List Char,
      build_command template (c0 :: ph0) s true
        = replaceAllSpec c0 ph0 (shlexQuote s) template := by
    intro s
    have h1 : build_command template (c0 :: ph0) s true
        = pyReplace template (c0 :: ph0) (shlexQuote s) := by
      simp [build_command]
    rw [h1, pyReplace, if_neg (by simp)]
    exact replaceGo_eq_replaceAllSpec c0 ph0 (shlexQuote s) template.length
      template (le_refl _)
  refine ⟨hbuild tok, ?_, rfl, by simp⟩
  rw [hbuild []]
  rfl

/-! ### Universal newline handling (C7) -/

theorem isLineBoundary_lf : isLineBoundary lfChar = true := by decide

theorem isLineBoundary_cr : isLineBoundary crChar = true := by decide

theorem splitlinesGo_boundary_cons (c : Char) (hb : isLineBoundary c = true)
    (hcr : c ≠ crChar) (L acc : List Char) :
    splitlinesGo (c :: L) acc = acc.reverse :: splitlinesGo L [] := by
  rcases L with _ | ⟨x, xs⟩
  · simp only [splitlinesGo]
    rw [if_pos hb]
  · simp only [splitlinesGo]
    rw [if_neg (by rintro ⟨h1, _⟩; exact hcr h1), if_pos hb]

theorem splitlinesGo_crlf (rest acc : List Char) :
    splitlinesGo (crChar :: lfChar :: rest) acc
      = acc.reverse :: splitlinesGo rest [] := by
  simp [splitlinesGo]

theorem splitlinesGo_cr_cons (L acc : List Char)
    (hx : L.head? ≠ some lfChar) :
    splitlinesGo (crChar :: L) acc = acc.reverse :: splitlinesGo L [] := by
  rcases L with _ | ⟨x, xs⟩
  · simp only [splitlinesGo]
    rw [if_pos isLineBoundary_cr]
  · simp only [splitlinesGo]
    rw [if_neg (by rintro ⟨_, h2⟩; exact hx (by simp [h2])),
      if_pos isLineBoundary_cr]

theorem splitlinesGo_plain (c : Char) (hb : isLineBoundary c = false)
    (L acc : List Char) :
    splitlinesGo (c :: L) acc = splitlinesGo L (c :: acc) := by
  have hcr : c ≠ crChar := by
    intro h
    rw [h, isLineBoundary_cr] at hb
    exact absurd hb (by simp)
  rcases L with _ | ⟨x, xs⟩
  · simp only [splitlinesGo]
    rw [if_neg (by simp [hb])]
  · simp only [splitlinesGo]
    rw [if_neg (by rintro ⟨h1, _⟩; exact hcr h1), if_neg (by simp [hb])]

theorem replaceGo_crlf :
    ∀ (fuel : Nat) (t : List Char), t.length ≤ fuel →
      replaceGo [crChar, lfChar] [lfChar] fuel t = normCRLF t := by
  intro fuel
  induction fuel with
  | zero =>
    intro t ht
    have ht0 : t = [] := List.length_eq_zero.mp (by omega)
    subst ht0
    rfl
  | succ f ih =>
    intro t ht
    rcases t with _ | ⟨c, _ | ⟨c2, rest⟩⟩
    · rfl
    · have hp : ([crChar, lfChar].isPrefixOf [c]) = false := by
        simp [List.isPrefixOf]
      simp only [replaceGo, hp, Bool.false_eq_true, if_false, normCRLF]
      rw [replaceGo_nil]
    · by_cases hcr : c = crChar ∧ c2 = lfChar
      · rcases hcr with ⟨h1, h2⟩
        subst h1
        subst h2
        have hp : ([crChar, lfChar].isPrefixOf
            (crChar :: lfChar :: rest)) = true := by
          simp [List.isPrefixOf]
        have hnn : normCRLF (crChar :: lfChar :: rest)
            = lfChar :: normCRLF rest := by
          simp [normCRLF]
        have hdrop :
            List.drop [crChar, lfChar].length (crChar :: lfChar :: rest)
              = rest := rfl
        simp only [replaceGo, hp, if_true, hnn, hdrop]
        have hlen : rest.length ≤ f := by simp at ht; omega
        rw [ih rest hlen]
        rfl
      · have hp : ([crChar, lfChar].isPrefixOf (c :: c2 :: rest)) = false := by
          simp [List.isPrefixOf]
          intro h1 h2
          exact hcr ⟨h1.symm, h2.symm⟩
        have hnn : normCRLF (c :: c2 :: rest)
            = c :: normCRLF (c2 :: rest) := by
          simp [normCRLF, hcr]
        simp only [replaceGo, hp, Bool.false_eq_true, if_false, hnn]
        have hlen : (c2 :: rest).length ≤ f := by simp at ht ⊢; omega
        rw [ih (c2 :: rest) hlen]

theorem replaceGo_single (a b : Char) :
    ∀ (fuel : Nat) (s : List Char), s.length ≤ fuel →
      replaceGo [a] [b] fuel s
        = s.map (fun c => if c = a then b else c) := by
  intro fuel
  induction fuel with
  | zero =>
    intro s hs
    have hs0 : s = [] := List.length_eq_zero.mp (by omega)
    subst hs0
    rfl
  | succ f ih =>
    intro s hs
    rcases s with _ | ⟨c, rest⟩
    · rfl
    · have hlen : rest.length ≤ f := by simp at hs; omega
      by_cases hc : c = a
      · subst hc
        have hp : ([c].isPrefixOf (c :: rest)) = true := by
          simp [List.isPrefixOf]
        have hdrop : List.drop [c].length (c :: rest) = rest := rfl
        simp only [replaceGo, hp, if_true, hdrop, List.map_cons]
        rw [ih rest hlen]
        rfl
      · have hp : ([a].isPrefixOf (c :: rest)) = false := by
          simp [List.isPrefixOf]
          intro h
          exact absurd h.symm hc
        simp only [replaceGo, hp, Bool.false_eq_true, if_false,
          List.map_cons]
        rw [ih rest hlen, if_neg hc]

theorem normCRLF_map :
    ∀ t : List Char,
      (normCRLF t).map (fun c => if c = crChar then lfChar else c)
        = normNewlines t := by
  intro t
  induction t using normCRLF.induct with
  | case1 => rfl
  | case2 c => rfl
  | case3 c c2 rest h ih =>
    simp only [normCRLF, if_pos h, normNewlines, List.map_cons]
    rw [ih]
    rw [if_neg (by decide)]
  | case4 c c2 rest h ih =>
    simp only [normCRLF, if_neg h, normNewlines, List.map_cons]
    rw [ih]

theorem splitlinesGo_norm :
    ∀ t : List Char, ∀ acc : List Char,
      splitlinesGo (normNewlines t) acc = splitlinesGo t acc := by
  intro t
  induction t using normNewlines.induct with
  | case1 => intro acc; rfl
  | case2 c =>
    intro acc
    by_cases hc : c = crChar
    · subst hc
      have hnn : normNewlines [crChar] = [lfChar] := by
        simp [normNewlines]
      rw [hnn,
        splitlinesGo_boundary_cons lfChar isLineBoundary_lf (by decide)
          [] acc,
        splitlinesGo_cr_cons [] acc (by simp)]
    · have hnn : normNewlines [c] = [c] := by
        simp [normNewlines, hc]
      rw [hnn]
  | case3 c c2 rest h ih =>
    intro acc
    rcases h with ⟨h1, h2⟩
    subst h1
    subst h2
    have hnn : normNewlines (crChar :: lfChar :: rest)
        = lfChar :: normNewlines rest := by
      simp [normNewlines]
    rw [hnn,
      splitlinesGo_boundary_cons lfChar isLineBoundary_lf (by decide)
        (normNewlines rest) acc,
      ih, splitlinesGo_crlf]
  | case4 c c2 rest h ih =>
    intro acc
    by_cases hc : c = crChar
    · subst hc
      have hc2 : c2 ≠ lfChar := by
        intro h2
        exact h ⟨rfl, h2⟩
      have hnn : normNewlines (crChar :: c2 :: rest)
          = lfChar :: normNewlines (c2 :: rest) := by
        simp [normNewlines, hc2]
      rw [hnn,
        splitlinesGo_boundary_cons lfChar isLineBoundary_lf (by decide)
          (normNewlines (c2 :: rest)) acc,
        ih, splitlinesGo_cr_cons (c2 :: rest) acc (by simp [hc2])]
    · have hnn : normNewlines (c :: c2 :: rest)
          = c :: normNewlines (c2 :: rest) := by
        simp [normNewlines, hc]
      rw [hnn]
      by_cases hb : isLineBoundary c
      · rw [splitlinesGo_boundary_cons c hb hc (normNewlines (c2 :: rest))
          acc,
          ih, splitlinesGo_boundary_cons c hb hc (c2 :: rest) acc]
      · rw [splitlinesGo_plain c (by simp [hb]) (normNewlines (c2 :: rest))
          acc,
          ih, splitlinesGo_plain c (by simp [hb]) (c2 :: rest) acc]

theorem pyReplace_newlines (t : List Char) :
    pyReplace (pyReplace t [crChar, lfChar] [lfChar]) [crChar] [lfChar]
      = normNewlines t := by
  have h1 : pyReplace t [crChar, lfChar] [lfChar] = normCRLF t := by
    rw [pyReplace, if_neg (by simp)]
    exact replaceGo_crlf t.length t (le_refl _)
  rw [h1, pyReplace, if_neg (by simp)]
  rw [replaceGo_single crChar lfChar (normCRLF t).length (normCRLF t)
    (le_refl _)]
  exact normCRLF_map t

/-- C7: with no delimiter configured and NUL mode off, tokenizing a text is
the same as tokenizing the text with every `\r\n` and lone `\r` replaced by
`\n` (for any keep-empty and strip settings). -/
theorem C7_universal_newlines (text : List Char) (keep_empty strip_ws : Bool) :
    tokenize_input
        (pyReplace (pyReplace text [crChar, lfChar] [lfChar])
          [crChar] [lfChar])
        none false keep_empty strip_ws
      = tokenize_input text none false keep_empty strip_ws := by
  simp only [tokenize_input, rawParts, Bool.false_eq_true, if_false]
  rw [pyReplace_newlines, splitlines, splitlines, splitlinesGo_norm]

/-! ### Orchestrator: sequential path (C1) -/

theorem runSequential_stop (runRc : List Char → Int)
    (template placeholder : List Char) (quote : Bool)
    (post : List (List Char)) :
    ∀ (pre : List (List Char)) (tok : List Char),
      (∀ t ∈ pre, runRc (build_command template placeholder t quote) = 0) →
      runRc (build_command template placeholder tok quote) ≠ 0 →
      runSequential runRc template placeholder quote (pre ++ tok :: post)
        = ((pre ++ [tok]).map
            (fun t => build_command template placeholder t quote),
           runRc (build_command template placeholder tok quote)) := by
  intro pre
  induction pre with
  | nil =>
    intro tok hpre hfail
    simp only [List.nil_append, runSequential]
    rw [if_pos hfail]
    simp [pyOrInt, hfail]
  | cons p ps ih =>
    intro tok hpre hfail
    have h0 : runRc (build_command template placeholder p quote) = 0 :=
      hpre p (by simp)
    simp only [List.cons_append, runSequential]
    rw [if_neg (by simp [h0])]
    simp only [List.append_eq]
    rw [ih tok (fun t ht => hpre t (by simp [ht])) hfail]
    simp

/-- C1: in sequential mode, after the first token whose command exits
non-zero, the orchestrator stops: exactly the commands for the passing
prefix and the failing token are built and run (later tokens never are),
and that non-zero code is the process exit code. -/
theorem C1_sequential_short_circuit (cfg : Config) (stdinText : List Char)
    (runRc : List Char → Int) (completionOrder : List Int)
    (pre post : List (List Char)) (tok : List Char)
    (hv : validate_args cfg = none) (hdry : cfg.dry_run = false)
    (hseq : cfg.max_procs ≤ 1)
    (htok : tokenize_input stdinText cfg.delimiter cfg.null cfg.keep_empty
        cfg.strip = pre ++ tok :: post)
    (hpre : ∀ t ∈ pre,
      runRc (build_command cfg.command cfg.placeholder t (!cfg.no_quote))
        = 0)
    (hfail :
      runRc (build_command cfg.command cfg.placeholder tok (!cfg.no_quote))
        ≠ 0) :
    main_model cfg stdinText runRc completionOrder
      = ((pre ++ [tok]).map
          (fun t => build_command cfg.command cfg.placeholder t
            (!cfg.no_quote)),
         runRc (build_command cfg.command cfg.placeholder tok
            (!cfg.no_quote))) := by
  simp only [main_model, hv, htok, hdry, Bool.false_eq_true, if_false]
  rw [if_neg (by simp), if_pos hseq]
  exact runSequential_stop runRc cfg.command cfg.placeholder (!cfg.no_quote)
    post pre tok hpre hfail

/-- Witness for C1 on tokens `[a, b, c]` where the command for `b` exits 2:
only `echo a` and `echo b` run, and the exit code is 2. -/
theorem C1_sequential_short_circuit_witness :
    main_model
        ⟨"echo X".toList, ['X'], none, false, false, false, 1, false, false,
          false, []⟩
        "a\nb\nc\n".toList
        (fun cmd => if cmd = "echo b".toList then 2 else 0) []
      = (["echo a".toList, "echo b".toList], 2) := by
  have h := C1_sequential_short_circuit
      ⟨"echo X".toList, ['X'], none, false, false, false, 1, false, false,
        false, []⟩
      "a\nb\nc\n".toList
      (fun cmd => if cmd = "echo b".toList then 2 else 0) []
      ["a".toList] ["c".toList] "b".toList
      (by decide) (by decide) (by decide) (by decide) (by decide) (by decide)
  rw [h]
  decide

/-! ### Orchestrator: parallel path (C2, C10) -/

theorem collect_foldl_stay :
    ∀ (l : List Int) (v : Int), v ≠ 0 →
      l.foldl
        (fun return_code rc =>
          if rc ≠ 0 ∧ return_code = EXIT_OK then
            pyOrInt rc EXIT_CHILD_FAILED
          else return_code) v = v := by
  intro l
  induction l with
  | nil => intro v _; rfl
  | cons rc l ih =>
    intro v hv
    simp only [List.foldl_cons]
    rw [if_neg (by rintro ⟨_, h2⟩; exact hv (by simpa [EXIT_OK] using h2))]
    exact ih v hv

theorem collectParallel_eq_firstNonzero :
    ∀ rcs : List Int, collectParallel rcs = firstNonzero rcs := by
  intro rcs
  induction rcs with
  | nil => rfl
  | cons rc l ih =>
    by_cases h : rc = 0
    · subst h
      have h1 : collectParallel ((0 : Int) :: l) = collectParallel l := by
        simp [collectParallel]
      rw [h1, ih]
      simp [firstNonzero, List.find?]
    · have h1 : collectParallel (rc :: l) = rc := by
        simp only [collectParallel, List.foldl_cons]
        rw [show (if rc ≠ 0 ∧ True then pyOrInt rc EXIT_CHILD_FAILED
            else EXIT_OK) = rc from by simp [pyOrInt, h]]
        exact collect_foldl_stay l rc h
      rw [h1]
      simp [firstNonzero, List.find?, h]

theorem firstNonzero_zero_iff (rcs : List Int) :
    (firstNonzero rcs = 0 ↔ ∀ rc ∈ rcs, rc = 0) ∧
    (firstNonzero rcs ≠ 0 → firstNonzero rcs ∈ rcs) := by
  refine ⟨⟨?_, ?_⟩, ?_⟩
  · intro h rc hrc
    by_contra hne
    rcases hf : rcs.find? (fun rc => decide (rc ≠ 0)) with _ | v
    · have := List.find?_eq_none.mp hf rc hrc
      simp at this
      exact hne this
    · have hv : v ≠ 0 := by simpa using List.find?_some hf
      rw [firstNonzero, hf] at h
      simp at h
      exact hv h
  · intro hall
    rcases hf : rcs.find? (fun rc => decide (rc ≠ 0)) with _ | v
    · rw [firstNonzero, hf]
      rfl
    · have hv : v ≠ 0 := by simpa using List.find?_some hf
      have hmem := List.mem_of_find?_eq_some hf
      exact absurd (hall v hmem) hv
  · intro hne
    rcases hf : rcs.find? (fun rc => decide (rc ≠ 0)) with _ | v
    · rw [firstNonzero, hf] at hne
      simp at hne
    · have hmem := List.mem_of_find?_eq_some hf
      rw [firstNonzero, hf]
      simpa using hmem

/-- C2: in parallel mode, every token's command is built and submitted (no
short-circuiting), the exit code is the first-observed non-zero code in
completion order, and it is zero exactly when every child exits zero. -/
theorem C2_parallel_first_observed (cfg : Config) (stdinText : List Char)
    (runRc : List Char → Int) (completionOrder : List Int)
    (hv : validate_args cfg = none) (hdry : cfg.dry_run = false)
    (hpar : ¬ cfg.max_procs ≤ 1)
    (hne : tokenize_input stdinText cfg.delimiter cfg.null cfg.keep_empty
        cfg.strip ≠ [])
    (hperm : completionOrder.Perm
      ((tokenize_input stdinText cfg.delimiter cfg.null cfg.keep_empty
          cfg.strip).map
        (fun t => runRc
          (build_command cfg.command cfg.placeholder t (!cfg.no_quote))))) :
    main_model cfg stdinText runRc completionOrder
      = ((tokenize_input stdinText cfg.delimiter cfg.null cfg.keep_empty
            cfg.strip).map
          (fun t => build_command cfg.command cfg.placeholder t
            (!cfg.no_quote)),
         firstNonzero completionOrder) ∧
    (firstNonzero completionOrder = 0 ↔
      ∀ t ∈ tokenize_input stdinText cfg.delimiter cfg.null cfg.keep_empty
          cfg.strip,
        runRc (build_command cfg.command cfg.placeholder t (!cfg.no_quote))
          = 0) ∧
    (firstNonzero completionOrder ≠ 0 →
      firstNonzero completionOrder ∈ completionOrder) := by
  refine ⟨?_, ?_, (firstNonzero_zero_iff completionOrder).2⟩
  · simp only [main_model, hv, hdry, Bool.false_eq_true, if_false]
    rw [if_neg hne, if_neg hpar]
    simp [runParallel, collectParallel_eq_firstNonzero]
  · rw [(firstNonzero_zero_iff completionOrder).1]
    constructor
    · intro hall t ht
      exact hall _ (hperm.mem_iff.mpr (List.mem_map_of_mem _ ht))
    · intro hall rc hrc
      rcases List.mem_map.mp (hperm.mem_iff.mp hrc) with ⟨t, ht, rfl⟩
      exact hall t ht

/-- Witness for C2: three tokens with distinct failing codes 1, 2, 3 and
completion order `[2, 3, 1]`; the exit code is 2, the first observed. -/
theorem C2_parallel_first_observed_witness :
    main_model
        ⟨"echo X".toList, ['X'], none, false, false, false, 3, true, false,
          false, []⟩
        "a\nb\nc\n".toList
        (fun cmd =>
          if cmd = "echo a".toList then 1
          else if cmd = "echo b".toList then 2 else 3)
        [2, 3, 1]
      = (["echo a".toList, "echo b".toList, "echo c".toList], 2) := by
  have h := C2_parallel_first_observed
      ⟨"echo X".toList, ['X'], none, false, false, false, 3, true, false,
        false, []⟩
      "a\nb\nc\n".toList
      (fun cmd =>
        if cmd = "echo a".toList then 1
        else if cmd = "echo b".toList then 2 else 3)
      [2, 3, 1]
      (by decide) (by decide) (by decide) (by decide) (by decide)
  rw [h.1]
  decide

/-! ### Configuration validation (C4, C9) -/

/-- C4 counterexample: a configuration with the empty placeholder is not
rejected (the Python substring test accepts the empty string in any
template), and a command is built and run, with exit code 0 — contradicting
the claim that an empty placeholder is a configuration error with a distinct
exit code and zero side effects. -/
theorem C4_counterexample :
    validate_args
        ⟨"echo".toList, [], none, false, false, false, 1, false, false,
          false, []⟩ = none ∧
    main_model
        ⟨"echo".toList, [], none, false, false, false, 1, false, false,
          false, []⟩ ['a'] (fun _ => 0) []
      = (["aeacahaoa".toList], 0) := by
  decide

/-- C4 amended: the placeholder must occur as a substring of the template;
a configuration whose placeholder does not occur is rejected with the
distinct exit code 65 before any token is processed and with zero side
effects (the result does not depend on stdin or on the runner).  The empty
placeholder occurs in every template under Python substring semantics, so
non-emptiness is not checked. -/
theorem C4_placeholder_occurrence (cfg : Config) (stdinText : List Char)
    (runRc : List Char → Int) (completionOrder : List Int)
    (h : containsSub cfg.placeholder cfg.command = false) :
    main_model cfg stdinText runRc completionOrder
      = ([], EXIT_NO_PLACEHOLDER) ∧
    EXIT_NO_PLACEHOLDER ≠ EXIT_OK ∧
    EXIT_NO_PLACEHOLDER ≠ EXIT_CHILD_FAILED ∧
    EXIT_NO_PLACEHOLDER ≠ EXIT_USAGE := by
  have hv : validate_args cfg = some EXIT_NO_PLACEHOLDER := by
    rw [validate_args, if_pos (by simp [h])]
  refine ⟨?_, by decide, by decide, by decide⟩
  simp [main_model, hv]

/-- Witness for the amended C4. -/
theorem C4_placeholder_occurrence_witness :
    main_model
        ⟨"echo".toList, ['Y'], none, false, false, false, 1, false, false,
          false, []⟩ ['a'] (fun _ => 0) []
      = ([], EXIT_NO_PLACEHOLDER) ∧
    EXIT_NO_PLACEHOLDER ≠ EXIT_OK ∧
    EXIT_NO_PLACEHOLDER ≠ EXIT_CHILD_FAILED ∧
    EXIT_NO_PLACEHOLDER ≠ EXIT_USAGE :=
  C4_placeholder_occurrence
    ⟨"echo".toList, ['Y'], none, false, false, false, 1, false, false,
      false, []⟩ ['a'] (fun _ => 0) [] (by decide)

/-- C9: a configuration asking for parallelism above 1 without disabling
stdin forwarding is always rejected by validation: the result is the same
for every stdin text, runner and completion order (so nothing is read from
stdin and no child is spawned), no command is executed, and the exit code is
one of the three distinct configuration-error codes. -/
theorem C9_parallel_requires_no_stdin (cfg : Config)
    (s1 s2 : List Char) (r1 r2 : List Char → Int) (o1 o2 : List Int)
    (hpar : 1 < cfg.max_procs) (hstdin : cfg.no_stdin = false) :
    main_model cfg s1 r1 o1 = main_model cfg s2 r2 o2 ∧
    (main_model cfg s1 r1 o1).1 = [] ∧
    ((main_model cfg s1 r1 o1).2 = EXIT_NO_PLACEHOLDER ∨
     (main_model cfg s1 r1 o1).2 = EXIT_BAD_ENV ∨
     (main_model cfg s1 r1 o1).2 = EXIT_NEEDS_NO_STDIN_FOR_PAR) := by
  have hv : ∃ e, validate_args cfg = some e ∧
      (e = EXIT_NO_PLACEHOLDER ∨ e = EXIT_BAD_ENV ∨
       e = EXIT_NEEDS_NO_STDIN_FOR_PAR) := by
    rw [validate_args]
    by_cases h1 : ¬ containsSub cfg.placeholder cfg.command
    · exact ⟨EXIT_NO_PLACEHOLDER, by rw [if_pos h1], Or.inl rfl⟩
    · rw [if_neg h1]
      by_cases h2 : cfg.env.any envItemBad
      · exact ⟨EXIT_BAD_ENV, by rw [if_pos h2], Or.inr (Or.inl rfl)⟩
      · rw [if_neg h2]
        exact ⟨EXIT_NEEDS_NO_STDIN_FOR_PAR,
          by rw [if_pos ⟨hpar, by simp [hstdin]⟩],
          Or.inr (Or.inr rfl)⟩
  rcases hv with ⟨e, hve, he⟩
  have hm : ∀ (s : List Char) (r : List Char → Int) (o : List Int),
      main_model cfg s r o = ([], e) := by
    intro s r o
    simp [main_model, hve]
  rw [hm s1 r1 o1, hm s2 r2 o2]
  exact ⟨rfl, rfl, by simpa using he⟩

/-- Witness for C9. -/
theorem C9_parallel_requires_no_stdin_witness :
    main_model
        ⟨"echo X".toList, ['X'], none, false, false, false, 2, false, false,
          false, []⟩ ['a'] (fun _ => 0) []
      = main_model
          ⟨"echo X".toList, ['X'], none, false, false, false, 2, false,
            false, false, []⟩ "bb".toList (fun _ => 7) [9] ∧
    (main_model
        ⟨"echo X".toList, ['X'], none, false, false, false, 2, false, false,
          false, []⟩ ['a'] (fun _ => 0) []).1 = [] ∧
    ((main_model
        ⟨"echo X".toList, ['X'], none, false, false, false, 2, false, false,
          false, []⟩ ['a'] (fun _ => 0) []).2 = EXIT_NO_PLACEHOLDER ∨
     (main_model
        ⟨"echo X".toList, ['X'], none, false, false, false, 2, false, false,
          false, []⟩ ['a'] (fun _ => 0) []).2 = EXIT_BAD_ENV ∨
     (main_model
        ⟨"echo X".toList, ['X'], none, false, false, false, 2, false, false,
          false, []⟩ ['a'] (fun _ => 0) []).2
       = EXIT_NEEDS_NO_STDIN_FOR_PAR) :=
  C9_parallel_requires_no_stdin
    ⟨"echo X".toList, ['X'], none, false, false, false, 2, false, false,
      false, []⟩ ['a'] "bb".toList (fun _ => 0) (fun _ => 7) [] [9]
    (by decide) (by decide)

/-- C10: the fallback sentinel in `rc or EXIT_CHILD_FAILED` is dead code:
under the guard `rc ≠ 0` the expression equals `rc`, the sequential exit
code is zero or the reported code of one of the commands that actually ran,
and the parallel collector returns zero or one of the completion-order
codes. -/
theorem C10_sentinel_unreachable :
    (∀ rc : Int, rc ≠ 0 → pyOrInt rc EXIT_CHILD_FAILED = rc) ∧
    (∀ (runRc : List Char → Int) (template placeholder : List Char)
        (quote : Bool) (tokens : List (List Char)),
      (runSequential runRc template placeholder quote tokens).2 = EXIT_OK ∨
      ∃ cmd ∈ (runSequential runRc template placeholder quote tokens).1,
        (runSequential runRc template placeholder quote tokens).2
          = runRc cmd) ∧
    (∀ rcs : List Int,
      collectParallel rcs = EXIT_OK ∨ collectParallel rcs ∈ rcs) := by
  refine ⟨fun rc h => by simp [pyOrInt, h], ?_, ?_⟩
  · intro runRc template placeholder quote tokens
    induction tokens with
    | nil => left; rfl
    | cons tok rest ih =>
      by_cases h : runRc (build_command template placeholder tok quote) ≠ 0
      · right
        simp only [runSequential]
        rw [if_pos h]
        refine ⟨build_command template placeholder tok quote, by simp, ?_⟩
        simp [pyOrInt, h]
      · simp only [runSequential]
        rw [if_neg h]
        rcases ih with h0 | ⟨cmd, hmem, heq⟩
        · left; simpa using h0
        · right
          exact ⟨cmd, by simp [hmem], by simpa using heq⟩
  · intro rcs
    rw [collectParallel_eq_firstNonzero]
    by_cases h : firstNonzero rcs = 0
    · left
      simpa [EXIT_OK] using h
    · right
      exact (firstNonzero_zero_iff rcs).2 h

/-- Witness for C10 at concrete inputs. -/
theorem C10_sentinel_unreachable_witness :
    pyOrInt 2 EXIT_CHILD_FAILED = 2 ∧
    ((runSequential (fun _ => (0 : Int)) "echo X".toList ['X'] true
        ["a".toList]).2 = EXIT_OK ∨
      ∃ cmd ∈ (runSequential (fun _ => (0 : Int)) "echo X".toList ['X'] true
        ["a".toList]).1,
        (runSequential (fun _ => (0 : Int)) "echo X".toList ['X'] true
          ["a".toList]).2 = (fun _ => (0 : Int)) cmd) ∧
    (collectParallel [0, 5] = EXIT_OK ∨ collectParallel [0, 5] ∈ [0, 5]) :=
  ⟨C10_sentinel_unreachable.1 2 (by decide),
   C10_sentinel_unreachable.2.1 (fun _ => 0) "echo X".toList ['X'] true
     ["a".toList],
   C10_sentinel_unreachable.2.2 [0, 5]⟩

end Each
